import Mathlib

/-!
Budget Splitter Assistant (`main.go`): the budget split and the message cascade.

A shallow embedding of the core of `main.go`:

* `preprocessYAML` (lines 54-58),
* the classification cascade of the message loop (lines 127-202),
* the budget split block (lines 159-182).

Modelling conventions.

* `float64` values (weights, amounts, raw shares) are exact rationals `ℚ`; Go's `int` is the
  unbounded `Int`.  NaN, infinities, binary rounding error and 64-bit overflow are outside the
  model.  In particular a quotient by a zero total weight is NaN or an infinity in Go; the
  results about portion values below all assume a positive total weight.
* A Go map is an association list with pairwise distinct keys, listed in the order in which
  `range` visits it.  Go leaves that order unspecified, so results are stated for every list.
* `strings.TrimSpace`, `json.Unmarshal`, `yaml.Unmarshal` and `strconv.ParseFloat` are library
  code; the cascade takes them as given functions (`Env`).
* Sending the reply and `saveCache` are I/O; the step function returns the reply and the new
  in-memory store.
-/

namespace BSA

/-! ## Data model -/

/-- The Go type `Categories`, i.e. `map[string]float64`, in visiting order. -/
abbrev Categories := List (String × ℚ)

/-- The Go type `map[string]int` of the local `portions`, in insertion order. -/
abbrev Portions := List (String × Int)

/-- The global `userCategories`, a `map[int64]Categories`; `none` is an absent key. -/
abbrev Store := Int → Option Categories

/-- The keys of a category map, in visiting order. -/
def catNames (cats : Categories) : List String := cats.map Prod.fst

/-- The keys of a portion map. -/
def portionNames (m : Portions) : List String := m.map Prod.fst

/-- The sum of all values of a portion map. -/
def portionSum (m : Portions) : Int := (m.map Prod.snd).sum

/-- Reading `m[k]` from a Go map: the stored value, or the zero value when `k` is absent. -/
def mapGet : Portions → String → Int
  | [], _ => 0
  | (k', v') :: m, k => if k' = k then v' else mapGet m k

/-- Writing `m[k] = v` to a Go map: overwrite the entry of `k`, or add one. -/
def mapSet : Portions → String → Int → Portions
  | [], k, v => [(k, v)]
  | (k', v') :: m, k, v => if k' = k then (k, v) :: m else (k', v') :: mapSet m k v

/-! ## Arithmetic -/

/-- Go's `math.Round`: the nearest integer, halves rounded away from zero. -/
def mathRound (x : ℚ) : ℚ :=
  if 0 ≤ x then ((⌊x + 1 / 2⌋ : Int) : ℚ) else -((⌊-x + 1 / 2⌋ : Int) : ℚ)

/-- Go's conversion `int(x)` of a float: the fractional part is dropped. -/
def toInt (x : ℚ) : Int :=
  if 0 ≤ x then ⌊x⌋ else ⌈x⌉

/-- Line 160: `intTotal := int(math.Round(amount))`. -/
def intTotalOf (amount : ℚ) : Int := toInt (mathRound amount)

/-- Lines 161-164: `totalWeight` accumulated over the map, starting from `0.0`. -/
def totalWeightOf (cats : Categories) : ℚ :=
  cats.foldl (fun acc cw => acc + cw.2) 0

/-- Line 171: `raw := float64(intTotal) * (weight / totalWeight)`. -/
def rawShare (intTotal : Int) (totalWeight weight : ℚ) : ℚ :=
  (intTotal : ℚ) * (weight / totalWeight)

/-- Line 172: `intPortion := int(math.Round(raw/100) * 100)`. -/
def intPortionOf (intTotal : Int) (totalWeight weight : ℚ) : Int :=
  toInt (mathRound (rawShare intTotal totalWeight weight / 100) * 100)

/-! ## The budget split block (lines 159-182) -/

/-- The variables the portion loop of lines 167-178 updates. -/
structure LoopState where
  portions : Portions
  sumPortions : Int
  firstCat : String
  deriving DecidableEq, Repr

/-- Lines 167-169: the loop variables before the first iteration. -/
def loopInit : LoopState := { portions := [], sumPortions := 0, firstCat := "" }

/-- Lines 171-177: one iteration of the portion loop, at the entry `cw = (cat, weight)`. -/
def loopStep (intTotal : Int) (totalWeight : ℚ) (st : LoopState) (cw : String × ℚ) :
    LoopState :=
  let intPortion := intPortionOf intTotal totalWeight cw.2
  { portions := mapSet st.portions cw.1 intPortion
    sumPortions := st.sumPortions + intPortion
    firstCat := if st.firstCat = "" then cw.1 else st.firstCat }

/-- Lines 160-178: the loop variables after the portion loop has visited all of `cats`. -/
def portionLoop (cats : Categories) (amount : ℚ) : LoopState :=
  cats.foldl (loopStep (intTotalOf amount) (totalWeightOf cats)) loopInit

/-- Line 181: `diff := intTotal - sumPortions`. -/
def diffOf (cats : Categories) (amount : ℚ) : Int :=
  intTotalOf amount - (portionLoop cats amount).sumPortions

/-- Lines 160-182: the final `portions` map, after `portions[firstCat] += diff`. -/
def splitBudget (cats : Categories) (amount : ℚ) : Portions :=
  let st := portionLoop cats amount
  mapSet st.portions st.firstCat (mapGet st.portions st.firstCat + diffOf cats amount)

/-! ## `preprocessYAML` (lines 54-58) -/

/-- The regular-expression replacement of `preprocessYAML` on a list of characters: scanning
from the left, each match of `:(\d)` is replaced by `: $1` and scanning resumes after the
match; `\d` is an ASCII digit. -/
def preprocessChars : List Char → List Char
  | [] => []
  | [c] => [c]
  | c :: d :: rest =>
    if c = ':' ∧ d.isDigit = true then ':' :: ' ' :: d :: preprocessChars rest
    else c :: preprocessChars (d :: rest)

/-- Lines 55-58: `preprocessYAML`. -/
def preprocessYAML (input : String) : String := String.mk (preprocessChars input.data)

/-- Follows the wording of the specification: position by position, every character is kept,
and a single space is put after it exactly when it is a colon whose next character is a
digit. -/
def insertSpaceAfterColonBeforeDigit (s : List Char) : List Char :=
  ((List.range s.length).map (fun i =>
    if s[i]? = some ':' ∧ (s[i + 1]?).any Char.isDigit = true then [':', ' ']
    else (s[i]?).toList)).flatten

/-- A colon directly followed by a digit occurs in `s`. -/
def hasColonDigit (s : List Char) : Prop :=
  ∃ i d, s[i]? = some ':' ∧ s[i + 1]? = some d ∧ d.isDigit = true

/-! ## The message cascade (lines 127-202) -/

/-- The library functions the cascade calls. `jsonUnmarshal text cats` and
`yamlUnmarshal text cats` stand for `Unmarshal([]byte(text), &cats)`: they return the value of
`cats` after the call and whether the returned error is `nil`. `parseFloat` is
`strconv.ParseFloat(text, 64)`, `none` when it returns an error. -/
structure Env where
  trimSpace : String → String
  jsonUnmarshal : String → Categories → Categories × Bool
  yamlUnmarshal : String → Categories → Categories × Bool
  parseFloat : String → Option ℚ

/-- The message sent back to the chat. -/
inductive Reply where
  /-- Line 134: "Categories updated successfully via JSON." -/
  | updatedJSON
  /-- Line 144: "Categories updated successfully via YAML." -/
  | updatedYAML
  /-- Lines 153-156: "No categories set. Please upload categories ..." -/
  | noCategories
  /-- Lines 186-190: "Budget split:" followed by one line per entry of `portions`. -/
  | budgetSplit (portions : Portions)
  /-- Lines 197-201: the fallback help message. -/
  | help
  deriving DecidableEq, Repr

/-- Lines 151-192: the body of the numeric branch, for the parsed `amount`. -/
def numericBranch (userCategories : Store) (userID : Int) (amount : ℚ) : Reply :=
  match userCategories userID with
  | none => Reply.noCategories
  | some cats =>
    if cats.length = 0 then Reply.noCategories
    else Reply.budgetSplit (splitBudget cats amount)

/-- Lines 127-202: one pass of the message loop for a message that is not a handled command.
Returns the store after the pass and the reply sent. -/
def handleText (env : Env) (userCategories : Store) (userID : Int) (messageText : String) :
    Store × Reply :=
  let text := env.trimSpace messageText
  let fromJSON := env.jsonUnmarshal text []
  if fromJSON.2 = true ∧ 0 < fromJSON.1.length then
    (Function.update userCategories userID (some fromJSON.1), Reply.updatedJSON)
  else
    let yamlText := preprocessYAML text
    let fromYAML := env.yamlUnmarshal yamlText fromJSON.1
    if fromYAML.2 = true ∧ 0 < fromYAML.1.length then
      (Function.update userCategories userID (some fromYAML.1), Reply.updatedYAML)
    else
      match env.parseFloat text with
      | some amount => (userCategories, numericBranch userCategories userID amount)
      | none => (userCategories, Reply.help)


/-- Line 131: the value of `cats` and of `err == nil` after `json.Unmarshal` was called on
the trimmed text with the freshly declared, empty `cats`. -/
def jsonResult (env : Env) (messageText : String) : Categories × Bool :=
  env.jsonUnmarshal (env.trimSpace messageText) []

/-- Line 131: the condition `err == nil && len(cats) > 0` of the JSON branch. -/
def jsonAccepted (env : Env) (messageText : String) : Prop :=
  (jsonResult env messageText).2 = true ∧ 0 < (jsonResult env messageText).1.length

/-- Lines 140-141: the value of `cats` and of `err == nil` after `yaml.Unmarshal` was called on
the preprocessed text with the `cats` the JSON attempt left behind. -/
def yamlResult (env : Env) (messageText : String) : Categories × Bool :=
  env.yamlUnmarshal (preprocessYAML (env.trimSpace messageText)) (jsonResult env messageText).1

/-- Line 141: the condition `err == nil && len(cats) > 0` of the YAML branch. -/
def yamlAccepted (env : Env) (messageText : String) : Prop :=
  (yamlResult env messageText).2 = true ∧ 0 < (yamlResult env messageText).1.length

/-! ## Sample inputs -/

/-- A sample of library behaviour, used to evaluate the cascade on concrete messages: nothing
is trimmed, the JSON text for the single category Food of weight 50 and the YAML text
`Food: 50` unmarshal to that one-category map (the JSON text is a YAML flow mapping as well),
`100` parses as the number 100, and every other call returns an error and leaves `cats` as it
was. -/
def sampleEnv : Env where
  trimSpace := fun text => text
  jsonUnmarshal := fun text cats =>
    if text = "\x7b\"Food\": 50\x7d" then ([("Food", 50)], true) else (cats, false)
  yamlUnmarshal := fun text cats =>
    if text = "Food: 50" ∨ text = "\x7b\"Food\": 50\x7d" then ([("Food", 50)], true)
    else (cats, false)
  parseFloat := fun text => if text = "100" then some 100 else none

/-- A sample store: user 1 has the single category Food of weight 0, user 3 has Food 50 and
Rent 50, nobody else has categories. -/
def sampleStore : Store := fun userID =>
  if userID = 1 then some [("Food", 0)]
  else if userID = 3 then some [("Food", 50), ("Rent", 50)]
  else none

/-! ## Lemmas on the map operations -/

theorem mapSet_of_not_mem (m : Portions) (k : String) (v : Int) (h : k ∉ portionNames m) :
    mapSet m k v = m ++ [(k, v)] := by
  induction m with
  | nil => rfl
  | cons e m ih =>
    obtain ⟨k', v'⟩ := e
    simp only [portionNames, List.map_cons, List.mem_cons, not_or] at h
    have hne : ¬ k' = k := fun hk => h.1 hk.symm
    simp only [mapSet, if_neg hne, List.cons_append]
    rw [ih h.2]

theorem portionSum_mapSet_of_mem (m : Portions) (k : String) (v : Int)
    (h : k ∈ portionNames m) :
    portionSum (mapSet m k v) = portionSum m - mapGet m k + v := by
  induction m with
  | nil => simp [portionNames] at h
  | cons e m ih =>
    obtain ⟨k', v'⟩ := e
    by_cases hk : k' = k
    · simp [mapSet, mapGet, hk, portionSum]
      ring
    · have hm : k ∈ portionNames m := by
        simp only [portionNames, List.map_cons, List.mem_cons] at h
        rcases h with h | h
        · exact absurd h.symm hk
        · exact h
      have ih' := ih hm
      simp only [portionSum] at ih'
      simp only [mapSet, mapGet, if_neg hk, portionSum, List.map_cons, List.sum_cons, ih']
      ring

theorem mapSet_mapGet_self (m : Portions) (k : String) (h : k ∈ portionNames m) :
    mapSet m k (mapGet m k) = m := by
  induction m with
  | nil => simp [portionNames] at h
  | cons e m ih =>
    obtain ⟨k', v'⟩ := e
    by_cases hk : k' = k
    · simp [mapSet, mapGet, hk]
    · have hm : k ∈ portionNames m := by
        simp only [portionNames, List.map_cons, List.mem_cons] at h
        rcases h with h | h
        · exact absurd h.symm hk
        · exact h
      simp only [mapSet, mapGet, if_neg hk, ih hm]

/-- Every entry of a map other than the one written keeps its value. -/
theorem mem_mapSet_of_ne (m : Portions) (k : String) (v : Int) (e : String × Int)
    (he : e ∈ mapSet m k v) (hne : e.1 ≠ k) : e ∈ m := by
  induction m with
  | nil =>
    simp only [mapSet, List.mem_singleton] at he
    exact absurd (by rw [he]) hne
  | cons e' m ih =>
    obtain ⟨k', v'⟩ := e'
    by_cases hk : k' = k
    · simp only [mapSet, if_pos hk, List.mem_cons] at he
      rcases he with he | he
      · exact absurd (by rw [he]) hne
      · exact List.mem_cons_of_mem _ he
    · simp only [mapSet, if_neg hk, List.mem_cons] at he
      rcases he with he | he
      · rw [he]; exact List.mem_cons_self _ _
      · exact List.mem_cons_of_mem _ (ih he)

/-! ## The portion loop in closed form -/

/-- The entries the portion loop writes, one per category, before the adjustment. -/
theorem foldl_loopStep_portions (T : Int) (W : ℚ) (cats : Categories) (st : LoopState)
    (hnd : (catNames cats).Nodup)
    (hdis : ∀ k ∈ catNames cats, k ∉ portionNames st.portions) :
    (cats.foldl (loopStep T W) st).portions =
      st.portions ++ cats.map (fun cw => (cw.1, intPortionOf T W cw.2)) := by
  induction cats generalizing st with
  | nil => simp
  | cons cw rest ih =>
    simp only [catNames, List.map_cons, List.nodup_cons] at hnd
    have h0 : cw.1 ∉ portionNames st.portions := hdis cw.1 (by simp [catNames])
    have hstep : (loopStep T W st cw).portions =
        st.portions ++ [(cw.1, intPortionOf T W cw.2)] := by
      simp only [loopStep]
      exact mapSet_of_not_mem _ _ _ h0
    rw [List.foldl_cons, ih (loopStep T W st cw) hnd.2]
    · rw [hstep]; simp
    · intro k hk
      rw [hstep]
      simp only [portionNames, List.map_append, List.map_cons, List.map_nil, List.mem_append,
        List.mem_singleton, not_or]
      refine ⟨?_, ?_⟩
      · exact hdis k (by simp only [catNames, List.map_cons, List.mem_cons]; exact Or.inr hk)
      · intro hkc
        exact hnd.1 (hkc ▸ hk)

theorem foldl_loopStep_sumPortions (T : Int) (W : ℚ) (cats : Categories) (st : LoopState) :
    (cats.foldl (loopStep T W) st).sumPortions =
      st.sumPortions + (cats.map (fun cw => intPortionOf T W cw.2)).sum := by
  induction cats generalizing st with
  | nil => simp
  | cons cw rest ih =>
    rw [List.foldl_cons, ih]
    simp only [loopStep, List.map_cons, List.sum_cons]
    ring

theorem foldl_loopStep_firstCat_cases (T : Int) (W : ℚ) (cats : Categories) (st : LoopState) :
    (cats.foldl (loopStep T W) st).firstCat = st.firstCat ∨
      (cats.foldl (loopStep T W) st).firstCat ∈ catNames cats := by
  induction cats generalizing st with
  | nil => left; rfl
  | cons cw rest ih =>
    rw [List.foldl_cons]
    rcases ih (loopStep T W st cw) with h | h
    · rw [h]
      simp only [loopStep]
      by_cases hs : st.firstCat = ""
      · right; simp [hs, catNames]
      · left; simp [hs]
    · right
      simp only [catNames, List.map_cons, List.mem_cons]
      exact Or.inr h

/-- A name that is not empty, once taken as `firstCat`, is kept to the end of the loop. -/
theorem foldl_loopStep_firstCat_keep (T : Int) (W : ℚ) (cats : Categories) (st : LoopState)
    (h : st.firstCat ≠ "") : (cats.foldl (loopStep T W) st).firstCat = st.firstCat := by
  induction cats generalizing st with
  | nil => rfl
  | cons cw rest ih =>
    have hs : (loopStep T W st cw).firstCat = st.firstCat := by simp [loopStep, h]
    rw [List.foldl_cons, ih _ (by rw [hs]; exact h), hs]

theorem portionLoop_portions (cats : Categories) (amount : ℚ) (hnd : (catNames cats).Nodup) :
    (portionLoop cats amount).portions =
      cats.map (fun cw => (cw.1, intPortionOf (intTotalOf amount) (totalWeightOf cats) cw.2)) := by
  have h := foldl_loopStep_portions (intTotalOf amount) (totalWeightOf cats) cats loopInit hnd
    (by intro k _; simp [loopInit, portionNames])
  simpa [portionLoop, loopInit] using h

theorem portionLoop_sumPortions (cats : Categories) (amount : ℚ) :
    (portionLoop cats amount).sumPortions =
      (cats.map (fun cw => intPortionOf (intTotalOf amount) (totalWeightOf cats) cw.2)).sum := by
  have h := foldl_loopStep_sumPortions (intTotalOf amount) (totalWeightOf cats) cats loopInit
  simpa [portionLoop, loopInit] using h

theorem portionLoop_names (cats : Categories) (amount : ℚ) (hnd : (catNames cats).Nodup) :
    portionNames (portionLoop cats amount).portions = catNames cats := by
  rw [portionLoop_portions cats amount hnd]
  simp [portionNames, catNames]

theorem portionLoop_portionSum (cats : Categories) (amount : ℚ) (hnd : (catNames cats).Nodup) :
    portionSum (portionLoop cats amount).portions = (portionLoop cats amount).sumPortions := by
  rw [portionLoop_portions cats amount hnd, portionLoop_sumPortions]
  simp [portionSum, Function.comp_def]

/-- After the loop over a map that is not empty, `firstCat` is one of its keys. -/
theorem portionLoop_firstCat_mem (cats : Categories) (amount : ℚ) (hne : cats ≠ []) :
    (portionLoop cats amount).firstCat ∈ catNames cats := by
  cases cats with
  | nil => exact absurd rfl hne
  | cons cw rest =>
    have hrest := foldl_loopStep_firstCat_cases (intTotalOf amount)
      (totalWeightOf (cw :: rest)) rest
      (loopStep (intTotalOf amount) (totalWeightOf (cw :: rest)) loopInit cw)
    simp only [portionLoop, List.foldl_cons]
    rcases hrest with h | h
    · rw [h]
      simp [loopStep, loopInit, catNames]
    · simp only [catNames, List.map_cons, List.mem_cons]
      exact Or.inr h

/-- When the first name visited is not empty, it is the `firstCat` after the loop. -/
theorem portionLoop_firstCat_head (cw : String × ℚ) (rest : Categories) (amount : ℚ)
    (h : cw.1 ≠ "") : (portionLoop (cw :: rest) amount).firstCat = cw.1 := by
  simp only [portionLoop, List.foldl_cons]
  rw [foldl_loopStep_firstCat_keep]
  · simp [loopStep, loopInit]
  · simpa [loopStep, loopInit] using h

/-! ## Lemmas on the arithmetic -/

theorem toInt_intCast (n : Int) : toInt (n : ℚ) = n := by
  unfold toInt
  split <;> simp

/-- The value of `math.Round` is an integer at distance at most one half. -/
theorem mathRound_spec (x : ℚ) : ∃ n : Int, mathRound x = (n : ℚ) ∧ |(n : ℚ) - x| ≤ 1 / 2 := by
  unfold mathRound
  by_cases hx : 0 ≤ x
  · refine ⟨⌊x + 1 / 2⌋, by simp [hx], ?_⟩
    have h1 := Int.floor_le (x + 1 / 2)
    have h2 := Int.lt_floor_add_one (x + 1 / 2)
    rw [abs_le]
    constructor <;> linarith
  · refine ⟨-⌊-x + 1 / 2⌋, by simp [hx], ?_⟩
    have h1 := Int.floor_le (-x + 1 / 2)
    have h2 := Int.lt_floor_add_one (-x + 1 / 2)
    rw [abs_le]
    push_cast
    constructor <;> linarith

theorem mathRound_nonneg (x : ℚ) (hx : 0 ≤ x) : 0 ≤ mathRound x := by
  unfold mathRound
  rw [if_pos hx]
  have : (0 : Int) ≤ ⌊x + 1 / 2⌋ := Int.floor_nonneg.mpr (by linarith)
  exact_mod_cast this

theorem mathRound_zero : mathRound 0 = 0 := by
  norm_num [mathRound]

theorem toInt_zero : toInt 0 = 0 := by
  simp [toInt]

theorem toInt_nonneg (x : ℚ) (hx : 0 ≤ x) : 0 ≤ toInt x := by
  unfold toInt
  rw [if_pos hx]
  exact Int.floor_nonneg.mpr hx

theorem intTotalOf_zero : intTotalOf 0 = 0 := by
  simp [intTotalOf, mathRound_zero, toInt_zero]

theorem intTotalOf_nonneg (amount : ℚ) (h : 0 ≤ amount) : 0 ≤ intTotalOf amount :=
  toInt_nonneg _ (mathRound_nonneg _ h)

/-- A portion is a multiple of 100 at distance at most 50 from the raw share. -/
theorem intPortionOf_spec (T : Int) (W w : ℚ) :
    ∃ n : Int, intPortionOf T W w = n * 100 ∧
      |((intPortionOf T W w : Int) : ℚ) - rawShare T W w| ≤ 50 := by
  obtain ⟨n, hn, hd⟩ := mathRound_spec (rawShare T W w / 100)
  have hval : intPortionOf T W w = n * 100 := by
    unfold intPortionOf
    rw [hn]
    have : ((n : ℚ) * 100) = ((n * 100 : Int) : ℚ) := by push_cast; ring
    rw [this, toInt_intCast]
  refine ⟨n, hval, ?_⟩
  rw [hval]
  push_cast
  rw [abs_le] at hd ⊢
  constructor <;> linarith [hd.1, hd.2]

theorem intPortionOf_nonneg (T : Int) (W w : ℚ) (hT : 0 ≤ T) (hW : 0 < W) (hw : 0 ≤ w) :
    0 ≤ intPortionOf T W w := by
  unfold intPortionOf
  apply toInt_nonneg
  have hraw : 0 ≤ rawShare T W w := by
    unfold rawShare
    have : (0 : ℚ) ≤ (T : ℚ) := by exact_mod_cast hT
    positivity
  have := mathRound_nonneg (rawShare T W w / 100) (by positivity)
  positivity

theorem intPortionOf_zero_total (W w : ℚ) : intPortionOf 0 W w = 0 := by
  simp [intPortionOf, rawShare, mathRound_zero, toInt_zero]

theorem foldl_add_weights (cats : Categories) (a : ℚ) :
    cats.foldl (fun acc cw => acc + cw.2) a = a + (cats.map Prod.snd).sum := by
  induction cats generalizing a with
  | nil => simp
  | cons cw rest ih =>
    rw [List.foldl_cons, ih]
    simp only [List.map_cons, List.sum_cons]
    ring

theorem totalWeightOf_eq_sum (cats : Categories) :
    totalWeightOf cats = (cats.map Prod.snd).sum := by
  unfold totalWeightOf
  rw [foldl_add_weights]
  simp

theorem sum_rawShare (T : Int) (W : ℚ) (cats : Categories) :
    (cats.map (fun cw => rawShare T W cw.2)).sum = (T : ℚ) * ((cats.map Prod.snd).sum / W) := by
  induction cats with
  | nil => simp
  | cons cw rest ih =>
    simp only [List.map_cons, List.sum_cons]
    rw [ih]
    unfold rawShare
    ring

/-- The raw shares add up to the integer total when the total weight is not zero. -/
theorem sum_rawShare_total (T : Int) (cats : Categories) (hW : totalWeightOf cats ≠ 0) :
    (cats.map (fun cw => rawShare T (totalWeightOf cats) cw.2)).sum = (T : ℚ) := by
  rw [sum_rawShare, ← totalWeightOf_eq_sum, div_self hW, mul_one]

/-- The rounding errors of the portions add up to at most 50 per category. -/
theorem abs_sum_portion_sub_raw (T : Int) (W : ℚ) (cats : Categories) :
    |(((cats.map (fun cw => intPortionOf T W cw.2)).sum : Int) : ℚ) -
      (cats.map (fun cw => rawShare T W cw.2)).sum| ≤ 50 * (cats.length : ℚ) := by
  induction cats with
  | nil => simp
  | cons cw rest ih =>
    obtain ⟨_, _, hb⟩ := intPortionOf_spec T W cw.2
    simp only [List.map_cons, List.sum_cons, List.length_cons, Int.cast_add, Nat.cast_add,
      Nat.cast_one]
    rw [abs_le] at hb ih ⊢
    constructor <;> linarith [hb.1, hb.2, ih.1, ih.2]

/-- The integer total is the amount rounded to the nearest integer, halves away from zero. -/
theorem intTotalOf_round_half_away (amount : ℚ) :
    |((intTotalOf amount : Int) : ℚ) - amount| ≤ 1 / 2 ∧
      (|((intTotalOf amount : Int) : ℚ) - amount| = 1 / 2 →
        |amount| < |((intTotalOf amount : Int) : ℚ)|) := by
  unfold intTotalOf mathRound
  by_cases hx : 0 ≤ amount
  · rw [if_pos hx, toInt_intCast]
    have h1 := Int.floor_le (amount + 1 / 2)
    have h2 := Int.lt_floor_add_one (amount + 1 / 2)
    refine ⟨by rw [abs_le]; constructor <;> linarith, fun heq => ?_⟩
    have hpos : ((⌊amount + 1 / 2⌋ : Int) : ℚ) - amount = 1 / 2 := by
      rcases abs_eq (by norm_num : (0 : ℚ) ≤ 1 / 2) |>.mp heq with h | h
      · exact h
      · linarith
    rw [abs_of_nonneg hx, abs_of_nonneg (by linarith)]
    linarith
  · rw [if_neg hx]
    have hcast : -((⌊-amount + 1 / 2⌋ : Int) : ℚ) = ((-⌊-amount + 1 / 2⌋ : Int) : ℚ) := by
      push_cast; ring
    rw [hcast, toInt_intCast]
    push_cast
    have h1 := Int.floor_le (-amount + 1 / 2)
    have h2 := Int.lt_floor_add_one (-amount + 1 / 2)
    have hneg : amount < 0 := not_le.mp hx
    refine ⟨by rw [abs_le]; constructor <;> linarith, fun heq => ?_⟩
    have hval : -((⌊-amount + 1 / 2⌋ : Int) : ℚ) - amount = -(1 / 2) := by
      rcases abs_eq (by norm_num : (0 : ℚ) ≤ 1 / 2) |>.mp heq with h | h
      · linarith
      · exact h
    rw [abs_of_neg hneg, abs_of_neg (by linarith)]
    linarith

/-! ## The claims on the budget split -/

/-- C1: for every category map with at least one category and positive total weight, and every
amount, the portions after `portions[firstCat] += diff` sum exactly to `intTotal`, and
`intTotal` is the amount rounded to the nearest integer with halves away from zero. -/
theorem split_sum_eq_rounded_total (cats : Categories) (amount : ℚ)
    (hnd : (catNames cats).Nodup) (hne : cats ≠ []) (_hW : 0 < totalWeightOf cats) :
    portionSum (splitBudget cats amount) = intTotalOf amount ∧
      |((intTotalOf amount : Int) : ℚ) - amount| ≤ 1 / 2 ∧
      (|((intTotalOf amount : Int) : ℚ) - amount| = 1 / 2 →
        |amount| < |((intTotalOf amount : Int) : ℚ)|) := by
  refine ⟨?_, intTotalOf_round_half_away amount⟩
  have hmem : (portionLoop cats amount).firstCat ∈
      portionNames (portionLoop cats amount).portions := by
    rw [portionLoop_names cats amount hnd]
    exact portionLoop_firstCat_mem cats amount hne
  unfold splitBudget
  simp only
  rw [portionSum_mapSet_of_mem _ _ _ hmem, portionLoop_portionSum cats amount hnd]
  unfold diffOf
  ring

theorem split_sum_eq_rounded_total_witness :
    portionSum (splitBudget [("Food", 50), ("Rent", 30), ("Other", 20)] (2501 / 2)) =
      intTotalOf (2501 / 2) :=
  (split_sum_eq_rounded_total [("Food", 50), ("Rent", 30), ("Other", 20)] (2501 / 2)
    (by decide) (by simp) (by norm_num [totalWeightOf])).1

/-- C8: for a positive total weight the raw shares add up to `intTotal`, every portion is within
50 of its raw share, and so the residual `diff` is at most 50 per category in absolute
value. -/
theorem diff_abs_le_fifty_per_category (cats : Categories) (amount : ℚ)
    (hW : 0 < totalWeightOf cats) :
    (cats.map (fun cw => rawShare (intTotalOf amount) (totalWeightOf cats) cw.2)).sum =
        ((intTotalOf amount : Int) : ℚ) ∧
      (∀ cw ∈ cats,
        |((intPortionOf (intTotalOf amount) (totalWeightOf cats) cw.2 : Int) : ℚ) -
          rawShare (intTotalOf amount) (totalWeightOf cats) cw.2| ≤ 50) ∧
      |diffOf cats amount| ≤ 50 * (cats.length : Int) := by
  have hsum := sum_rawShare_total (intTotalOf amount) cats (ne_of_gt hW)
  refine ⟨hsum, fun cw _ => ?_, ?_⟩
  · obtain ⟨_, _, hb⟩ := intPortionOf_spec (intTotalOf amount) (totalWeightOf cats) cw.2
    exact hb
  have hb := abs_sum_portion_sub_raw (intTotalOf amount) (totalWeightOf cats) cats
  rw [hsum] at hb
  have hq : |((diffOf cats amount : Int) : ℚ)| ≤ ((50 * (cats.length : Int) : Int) : ℚ) := by
    unfold diffOf
    rw [portionLoop_sumPortions]
    simp only [Int.cast_sub, Int.cast_mul, Int.cast_ofNat, Int.cast_natCast]
    rw [abs_le] at hb ⊢
    constructor <;> linarith [hb.1, hb.2]
  rw [← Int.cast_abs] at hq
  exact_mod_cast hq

theorem diff_abs_le_fifty_per_category_witness :
    |diffOf [("a", 1), ("b", 1), ("c", 1), ("d", 1)] 200| ≤
      50 * (([("a", 1), ("b", 1), ("c", 1), ("d", 1)] : Categories).length : Int) :=
  (diff_abs_le_fifty_per_category [("a", 1), ("b", 1), ("c", 1), ("d", 1)] 200
    (by norm_num [totalWeightOf])).2.2

/-- C9: for every category map with at least one category and positive total weight, splitting
the amount 0 gives `diff = 0` and the portion 0 to every category, the adjusted one
included. -/
theorem split_zero_amount (cats : Categories) (hnd : (catNames cats).Nodup) (hne : cats ≠ [])
    (_hW : 0 < totalWeightOf cats) :
    diffOf cats 0 = 0 ∧ splitBudget cats 0 = cats.map (fun cw => (cw.1, (0 : Int))) := by
  have hsum : (portionLoop cats 0).sumPortions = 0 := by
    rw [portionLoop_sumPortions, intTotalOf_zero]
    simp [intPortionOf_zero_total]
  have hdiff : diffOf cats 0 = 0 := by
    unfold diffOf
    rw [hsum, intTotalOf_zero]
    rfl
  have hmem : (portionLoop cats 0).firstCat ∈ portionNames (portionLoop cats 0).portions := by
    rw [portionLoop_names cats 0 hnd]
    exact portionLoop_firstCat_mem cats 0 hne
  refine ⟨hdiff, ?_⟩
  unfold splitBudget
  simp only
  rw [hdiff, add_zero, mapSet_mapGet_self _ _ hmem, portionLoop_portions cats 0 hnd,
    intTotalOf_zero]
  simp [intPortionOf_zero_total]

theorem split_zero_amount_witness :
    splitBudget [("Food", 50), ("Rent", 30), ("Other", 20)] 0 =
      [("Food", 0), ("Rent", 0), ("Other", 0)] :=
  (split_zero_amount [("Food", 50), ("Rent", 30), ("Other", 20)]
    (by decide) (by simp) (by norm_num [totalWeightOf])).2

/-- C10: portions can be negative. Four categories of weight 1 and the amount 200 give every
category the pre-adjustment portion 100 and `diff = -200`, so the first category visited ends
at -100. For weights that are all non-negative, a positive total weight and a non-negative
amount, every portion other than the one of the adjusted category `firstCat` is
non-negative. -/
theorem adjusted_portion_may_be_negative :
    ((portionLoop [("a", 1), ("b", 1), ("c", 1), ("d", 1)] 200).portions =
        [("a", 100), ("b", 100), ("c", 100), ("d", 100)] ∧
      diffOf [("a", 1), ("b", 1), ("c", 1), ("d", 1)] 200 = -200 ∧
      (portionLoop [("a", 1), ("b", 1), ("c", 1), ("d", 1)] 200).firstCat = "a" ∧
      splitBudget [("a", 1), ("b", 1), ("c", 1), ("d", 1)] 200 =
        [("a", -100), ("b", 100), ("c", 100), ("d", 100)]) ∧
    (∀ (cats : Categories) (amount : ℚ), (catNames cats).Nodup →
      (∀ cw ∈ cats, 0 ≤ cw.2) → 0 < totalWeightOf cats → 0 ≤ amount →
      ∀ e ∈ splitBudget cats amount, e.1 ≠ (portionLoop cats amount).firstCat → 0 ≤ e.2) := by
  refine ⟨?_, ?_⟩
  · have hp : (portionLoop [("a", 1), ("b", 1), ("c", 1), ("d", 1)] 200).portions =
        [("a", 100), ("b", 100), ("c", 100), ("d", 100)] := by
      rw [portionLoop_portions _ _ (by decide)]
      norm_num [intPortionOf, rawShare, intTotalOf, totalWeightOf, mathRound, toInt]
    have hs : (portionLoop [("a", 1), ("b", 1), ("c", 1), ("d", 1)] 200).sumPortions = 400 := by
      rw [portionLoop_sumPortions]
      norm_num [intPortionOf, rawShare, intTotalOf, totalWeightOf, mathRound, toInt]
    have hf : (portionLoop [("a", 1), ("b", 1), ("c", 1), ("d", 1)] 200).firstCat = "a" :=
      portionLoop_firstCat_head ("a", 1) _ 200 (by decide)
    have hd : diffOf [("a", 1), ("b", 1), ("c", 1), ("d", 1)] 200 = -200 := by
      unfold diffOf
      rw [hs]
      norm_num [intTotalOf, mathRound, toInt]
    refine ⟨hp, hd, hf, ?_⟩
    unfold splitBudget
    simp only
    rw [hp, hf, hd]
    simp [mapSet, mapGet]
  · intro cats amount hnd hw hW hA e he hne
    unfold splitBudget at he
    simp only at he
    have hmem := mem_mapSet_of_ne _ _ _ e he hne
    rw [portionLoop_portions cats amount hnd, List.mem_map] at hmem
    obtain ⟨cw, hcw, rfl⟩ := hmem
    exact intPortionOf_nonneg _ _ _ (intTotalOf_nonneg amount hA) hW (hw cw hcw)

/-- When the first name visited is not the empty string, the first category visited receives
its own portion plus `diff`, and every other category exactly its own portion. -/
theorem split_adjusts_head_of_name_ne_empty (cw : String × ℚ) (rest : Categories)
    (amount : ℚ) (hnd : (catNames (cw :: rest)).Nodup) (hname : cw.1 ≠ "") :
    splitBudget (cw :: rest) amount =
      (cw.1, intPortionOf (intTotalOf amount) (totalWeightOf (cw :: rest)) cw.2 +
          diffOf (cw :: rest) amount) ::
        rest.map (fun c =>
          (c.1, intPortionOf (intTotalOf amount) (totalWeightOf (cw :: rest)) c.2)) := by
  unfold splitBudget
  simp only
  rw [portionLoop_firstCat_head cw rest amount hname, portionLoop_portions _ amount hnd]
  simp [mapSet, mapGet]

/-- C2, evaluated where the first category visited has the empty name: for the map with the
keys "" and "Food", both of weight 1, visited in that order, and the amount 100, both
pre-adjustment portions are 100 and `diff = -100`; `firstCat` ends as "Food", so the
category visited first keeps 100 and the second one absorbs `diff`. -/
theorem adjustment_skips_empty_first_name :
    (portionLoop [("", 1), ("Food", 1)] 100).portions = [("", 100), ("Food", 100)] ∧
      diffOf [("", 1), ("Food", 1)] 100 = -100 ∧
      (portionLoop [("", 1), ("Food", 1)] 100).firstCat = "Food" ∧
      splitBudget [("", 1), ("Food", 1)] 100 = [("", 100), ("Food", 0)] := by
  have hp : (portionLoop [("", 1), ("Food", 1)] 100).portions = [("", 100), ("Food", 100)] := by
    rw [portionLoop_portions _ _ (by decide)]
    norm_num [intPortionOf, rawShare, intTotalOf, totalWeightOf, mathRound, toInt]
  have hs : (portionLoop [("", 1), ("Food", 1)] 100).sumPortions = 200 := by
    rw [portionLoop_sumPortions]
    norm_num [intPortionOf, rawShare, intTotalOf, totalWeightOf, mathRound, toInt]
  have hf : (portionLoop [("", 1), ("Food", 1)] 100).firstCat = "Food" := by
    simp [portionLoop, loopStep, loopInit]
  have hd : diffOf [("", 1), ("Food", 1)] 100 = -100 := by
    unfold diffOf
    rw [hs]
    norm_num [intTotalOf, mathRound, toInt]
  refine ⟨hp, hd, hf, ?_⟩
  unfold splitBudget
  simp only
  rw [hp, hf, hd]
  decide

/-- C4, as stated, fails: for the categories Food 50, Rent 30, Other 20 visited in this order
and the amount 100, the pre-adjustment portions are 100, 0, 0 and `diff` is 0; they are not
0, 0, 0 with `diff = 100`. -/
theorem example_split_preadjustment_not_zero :
    (portionLoop [("Food", 50), ("Rent", 30), ("Other", 20)] 100).portions =
        [("Food", 100), ("Rent", 0), ("Other", 0)] ∧
      diffOf [("Food", 50), ("Rent", 30), ("Other", 20)] 100 = 0 ∧
      ¬ ((portionLoop [("Food", 50), ("Rent", 30), ("Other", 20)] 100).portions =
          [("Food", 0), ("Rent", 0), ("Other", 0)] ∧
        diffOf [("Food", 50), ("Rent", 30), ("Other", 20)] 100 = 100) := by
  have hp : (portionLoop [("Food", 50), ("Rent", 30), ("Other", 20)] 100).portions =
      [("Food", 100), ("Rent", 0), ("Other", 0)] := by
    rw [portionLoop_portions _ _ (by decide)]
    norm_num [intPortionOf, rawShare, intTotalOf, totalWeightOf, mathRound, toInt]
  have hd : diffOf [("Food", 50), ("Rent", 30), ("Other", 20)] 100 = 0 := by
    unfold diffOf
    rw [portionLoop_sumPortions]
    norm_num [intPortionOf, rawShare, intTotalOf, totalWeightOf, mathRound, toInt]
  refine ⟨hp, hd, ?_⟩
  rintro ⟨_, h100⟩
  rw [hd] at h100
  exact absurd h100 (by decide)

/-- C4, amended: for the categories Food 50, Rent 30, Other 20 and the amount 100 the raw
shares are 50, 30 and 20; the share 50 rounds half away from zero to 100 and the shares 30 and
20 round to 0, so the pre-adjustment portions are 100, 0, 0 and `diff = 0`; the result is
Food 100, Rent 0, Other 0, and it is the same in every visiting order. -/
theorem example_split_result :
    (rawShare (intTotalOf 100) (totalWeightOf [("Food", 50), ("Rent", 30), ("Other", 20)]) 50 = 50
      ∧ rawShare (intTotalOf 100)
          (totalWeightOf [("Food", 50), ("Rent", 30), ("Other", 20)]) 30 = 30
      ∧ rawShare (intTotalOf 100)
          (totalWeightOf [("Food", 50), ("Rent", 30), ("Other", 20)]) 20 = 20) ∧
    (portionLoop [("Food", 50), ("Rent", 30), ("Other", 20)] 100).portions =
        [("Food", 100), ("Rent", 0), ("Other", 0)] ∧
    diffOf [("Food", 50), ("Rent", 30), ("Other", 20)] 100 = 0 ∧
    splitBudget [("Food", 50), ("Rent", 30), ("Other", 20)] 100 =
        [("Food", 100), ("Rent", 0), ("Other", 0)] ∧
    (∀ cats : Categories, cats.Perm [("Food", 50), ("Rent", 30), ("Other", 20)] →
      diffOf cats 100 = 0 ∧
        (splitBudget cats 100).Perm [("Food", 100), ("Rent", 0), ("Other", 0)]) := by
  have hperm : ∀ cats : Categories, cats.Perm [("Food", 50), ("Rent", 30), ("Other", 20)] →
      (portionLoop cats 100).portions.Perm [("Food", 100), ("Rent", 0), ("Other", 0)] ∧
      diffOf cats 100 = 0 ∧
        splitBudget cats 100 = (portionLoop cats 100).portions := by
    intro cats hp
    have hnd : (catNames cats).Nodup :=
      (List.Perm.nodup_iff (hp.map Prod.fst)).mpr (by decide)
    have hne : cats ≠ [] := by
      intro h
      rw [h] at hp
      exact absurd hp.length_eq (by decide)
    have hW : totalWeightOf cats = 100 := by
      rw [totalWeightOf_eq_sum, (hp.map Prod.snd).sum_eq]
      norm_num
    have hT : intTotalOf 100 = 100 := by norm_num [intTotalOf, mathRound, toInt]
    have hport : (portionLoop cats 100).portions.Perm
        [("Food", 100), ("Rent", 0), ("Other", 0)] := by
      rw [portionLoop_portions cats 100 hnd, hW, hT]
      have := hp.map (fun cw : String × ℚ => (cw.1, intPortionOf 100 100 cw.2))
      refine this.trans ?_
      norm_num [intPortionOf, rawShare, mathRound, toInt]
    have hd : diffOf cats 100 = 0 := by
      unfold diffOf
      rw [portionLoop_sumPortions, hW, hT,
        (hp.map (fun cw : String × ℚ => intPortionOf 100 100 cw.2)).sum_eq]
      norm_num [intPortionOf, rawShare, mathRound, toInt]
    refine ⟨hport, hd, ?_⟩
    unfold splitBudget
    simp only
    rw [hd, add_zero]
    apply mapSet_mapGet_self
    rw [portionLoop_names cats 100 hnd]
    exact portionLoop_firstCat_mem cats 100 hne
  have hbase := hperm _ (List.Perm.refl _)
  have hp : (portionLoop [("Food", 50), ("Rent", 30), ("Other", 20)] 100).portions =
      [("Food", 100), ("Rent", 0), ("Other", 0)] := by
    rw [portionLoop_portions _ _ (by decide)]
    norm_num [intPortionOf, rawShare, intTotalOf, totalWeightOf, mathRound, toInt]
  refine ⟨?_, hp, hbase.2.1, ?_, ?_⟩
  · norm_num [rawShare, intTotalOf, totalWeightOf, mathRound, toInt]
  · rw [hbase.2.2, hp]
  · intro cats hc
    obtain ⟨h1, h2, h3⟩ := hperm cats hc
    exact ⟨h2, by rw [h3]; exact h1⟩

/-! ## `preprocessYAML` -/

theorem insertSpace_cons (c : Char) (s : List Char) :
    insertSpaceAfterColonBeforeDigit (c :: s) =
      (if c = ':' ∧ (s.head?).any Char.isDigit = true then [':', ' '] else [c]) ++
        insertSpaceAfterColonBeforeDigit s := by
  unfold insertSpaceAfterColonBeforeDigit
  rw [List.length_cons, List.range_succ_eq_map, List.map_cons, List.flatten_cons, List.map_map]
  congr 1
  · cases s <;> simp
  · congr 1
    apply List.map_congr_left
    intro i _
    simp [Function.comp]

theorem insertSpace_nil : insertSpaceAfterColonBeforeDigit [] = [] := by
  simp [insertSpaceAfterColonBeforeDigit]

theorem isDigit_ne_colon (d : Char) (h : d.isDigit = true) : d ≠ ':' := by
  rintro rfl
  exact absurd h (by decide)

/-- The replacement scan agrees with the position-by-position description. -/
theorem preprocessChars_eq_insertSpace (s : List Char) :
    preprocessChars s = insertSpaceAfterColonBeforeDigit s := by
  induction s using preprocessChars.induct with
  | case1 => simp [preprocessChars, insertSpace_nil]
  | case2 c => simp [preprocessChars, insertSpace_cons, insertSpace_nil]
  | case3 c d rest h ih =>
    rw [preprocessChars, if_pos h, insertSpace_cons, insertSpace_cons, ← ih]
    have hd : d ≠ ':' := isDigit_ne_colon d h.2
    simp [h.1, h.2, hd]
  | case4 c d rest h ih =>
    rw [preprocessChars, if_neg h, insertSpace_cons, ← ih]
    simp only [List.head?_cons, Option.any_some]
    rw [if_neg h]
    rfl

/-- A text without a colon directly followed by a digit is left as it is. -/
theorem preprocessChars_of_not_hasColonDigit (s : List Char) (h : ¬ hasColonDigit s) :
    preprocessChars s = s := by
  induction s using preprocessChars.induct with
  | case1 => rfl
  | case2 c => rfl
  | case3 c d rest hcd _ =>
    exact absurd ⟨0, d, by simp [hcd.1], by simp, hcd.2⟩ h
  | case4 c d rest hcd ih =>
    rw [preprocessChars, if_neg hcd, ih]
    rintro ⟨i, e, h1, h2, h3⟩
    exact h ⟨i + 1, e, by simpa using h1, by simpa using h2, h3⟩

/-- C7: `preprocessYAML` returns its input with one space put after every colon that is
directly followed by a digit and nothing else changed; `Food:50` becomes `Food: 50`,
`Food: 50` stays, and so does every text without a colon directly followed by a digit. -/
theorem preprocessYAML_inserts_space (input : String) :
    (preprocessYAML input).data = insertSpaceAfterColonBeforeDigit input.data ∧
      (¬ hasColonDigit input.data → preprocessYAML input = input) ∧
      preprocessYAML "Food:50" = "Food: 50" ∧
      preprocessYAML "Food: 50" = "Food: 50" := by
  refine ⟨?_, ?_, by decide, by decide⟩
  · exact preprocessChars_eq_insertSpace input.data
  · intro h
    unfold preprocessYAML
    rw [preprocessChars_of_not_hasColonDigit _ h]

theorem preprocessYAML_inserts_space_witness :
    (preprocessYAML "Rent:30 x:y 1:2:3").data =
        insertSpaceAfterColonBeforeDigit "Rent:30 x:y 1:2:3".data ∧
      preprocessYAML "Rent:30 x:y 1:2:3" = "Rent: 30 x:y 1: 2: 3" :=
  ⟨(preprocessYAML_inserts_space "Rent:30 x:y 1:2:3").1, by decide⟩

/-! ## The claims on the message cascade -/

/-- C3, as stated, fails: user 1 has stored the single category Food of weight 0, so the total
weight is 0, and sends `100`; both structured parses fail, the number parses, and the reply is
the budget split computed from that set (Go divides `0.0 / 0.0` here), not the
"no categories" message. -/
theorem zero_total_weight_is_not_guarded :
    sampleStore 1 = some [("Food", 0)] ∧
      totalWeightOf [("Food", 0)] ≤ 0 ∧
      sampleEnv.parseFloat (sampleEnv.trimSpace "100") = some 100 ∧
      (handleText sampleEnv sampleStore 1 "100").2 =
        Reply.budgetSplit (splitBudget [("Food", 0)] 100) ∧
      (handleText sampleEnv sampleStore 1 "100").2 ≠ Reply.noCategories := by
  have h : (handleText sampleEnv sampleStore 1 "100").2 =
      Reply.budgetSplit (splitBudget [("Food", 0)] 100) := by
    simp [handleText, sampleEnv, sampleStore, numericBranch, preprocessYAML, preprocessChars]
  refine ⟨by simp [sampleStore], by simp [totalWeightOf], by simp [sampleEnv], h, ?_⟩
  rw [h]
  exact fun hc => Reply.noConfusion hc

/-- C3, amended: when neither structured parse is accepted (no error and a non-empty set) and
the trimmed text parses as a number, the store is unchanged, the reply is the "no categories"
message exactly when the user has no stored set or an empty one, and for every stored
non-empty set, whatever its total weight, the reply is the budget split computed from it. -/
theorem numeric_branch_guard (env : Env) (userCategories : Store) (userID : Int)
    (messageText : String) (amount : ℚ)
    (hjson : ¬ jsonAccepted env messageText) (hyaml : ¬ yamlAccepted env messageText)
    (hnum : env.parseFloat (env.trimSpace messageText) = some amount) :
    (handleText env userCategories userID messageText).1 = userCategories ∧
      ((handleText env userCategories userID messageText).2 = Reply.noCategories ↔
        (userCategories userID = none ∨ userCategories userID = some [])) ∧
      (∀ cats, userCategories userID = some cats → cats ≠ [] →
        (handleText env userCategories userID messageText).2 =
          Reply.budgetSplit (splitBudget cats amount)) := by
  have hval : handleText env userCategories userID messageText =
      (userCategories, numericBranch userCategories userID amount) := by
    unfold jsonAccepted jsonResult at hjson
    unfold yamlAccepted yamlResult jsonResult at hyaml
    unfold handleText
    simp only
    rw [if_neg hjson, if_neg hyaml, hnum]
  rw [hval]
  refine ⟨rfl, ?_, ?_⟩
  · unfold numericBranch
    cases hs : userCategories userID with
    | none => simp
    | some cats =>
      cases cats with
      | nil => simp
      | cons cw rest => simp
  · intro cats hs hne
    unfold numericBranch
    simp only [hs]
    rw [if_neg (by simpa using hne)]

theorem numeric_branch_guard_witness :
    (handleText sampleEnv sampleStore 2 "100").2 = Reply.noCategories ↔
      (sampleStore 2 = none ∨ sampleStore 2 = some []) :=
  (numeric_branch_guard sampleEnv sampleStore 2 "100" 100
    (by simp [jsonAccepted, jsonResult, sampleEnv])
    (by simp [yamlAccepted, yamlResult, jsonResult, sampleEnv, preprocessYAML, preprocessChars])
    (by simp [sampleEnv])).2.1

/-- The cascade in closed form: the four outcomes of one pass. -/
theorem handleText_cases (env : Env) (userCategories : Store) (userID : Int)
    (messageText : String) :
    (jsonAccepted env messageText →
      handleText env userCategories userID messageText =
        (Function.update userCategories userID (some (jsonResult env messageText).1),
          Reply.updatedJSON)) ∧
    (¬ jsonAccepted env messageText → yamlAccepted env messageText →
      handleText env userCategories userID messageText =
        (Function.update userCategories userID (some (yamlResult env messageText).1),
          Reply.updatedYAML)) ∧
    (¬ jsonAccepted env messageText → ¬ yamlAccepted env messageText →
      ∀ amount, env.parseFloat (env.trimSpace messageText) = some amount →
        handleText env userCategories userID messageText =
          (userCategories, numericBranch userCategories userID amount)) ∧
    (¬ jsonAccepted env messageText → ¬ yamlAccepted env messageText →
      env.parseFloat (env.trimSpace messageText) = none →
        handleText env userCategories userID messageText = (userCategories, Reply.help)) := by
  unfold jsonAccepted yamlAccepted yamlResult jsonResult
  refine ⟨?_, ?_, ?_, ?_⟩
  · intro hj
    unfold handleText
    simp only
    rw [if_pos hj]
  · intro hj hy
    unfold handleText
    simp only
    rw [if_neg hj, if_pos hy]
  · intro hj hy amount hnum
    unfold handleText
    simp only
    rw [if_neg hj, if_neg hy, hnum]
  · intro hj hy hnum
    unfold handleText
    simp only
    rw [if_neg hj, if_neg hy, hnum]

theorem numericBranch_cases (userCategories : Store) (userID : Int) (amount : ℚ) :
    numericBranch userCategories userID amount = Reply.noCategories ∨
      ∃ cats, userCategories userID = some cats ∧ cats ≠ [] ∧
        numericBranch userCategories userID amount =
          Reply.budgetSplit (splitBudget cats amount) := by
  unfold numericBranch
  cases hs : userCategories userID with
  | none => left; rfl
  | some cats =>
    cases cats with
    | nil => left; simp
    | cons cw rest => right; exact ⟨cw :: rest, rfl, by simp, by simp⟩

/-- C6: the cascade is strictly ordered and the first match wins. Whenever the JSON attempt is
accepted the reply is "updated via JSON" and the JSON set is stored, whatever the other
parsers return; otherwise, whenever the YAML attempt on the preprocessed text is accepted, the
reply is "updated via YAML" and the YAML set is stored; otherwise, whenever the trimmed text
parses as a number, the pass is the numeric branch (a budget split or the "no categories"
message) and the store is unchanged; otherwise the reply is the help message. In particular a
text accepted by both structured parsers is handled as JSON. -/
theorem classification_first_match_wins (env : Env) (userCategories : Store) (userID : Int)
    (messageText : String) :
    (jsonAccepted env messageText →
      handleText env userCategories userID messageText =
        (Function.update userCategories userID (some (jsonResult env messageText).1),
          Reply.updatedJSON)) ∧
    (jsonAccepted env messageText → yamlAccepted env messageText →
      (handleText env userCategories userID messageText).2 = Reply.updatedJSON) ∧
    (¬ jsonAccepted env messageText → yamlAccepted env messageText →
      handleText env userCategories userID messageText =
        (Function.update userCategories userID (some (yamlResult env messageText).1),
          Reply.updatedYAML)) ∧
    (¬ jsonAccepted env messageText → ¬ yamlAccepted env messageText →
      ∀ amount, env.parseFloat (env.trimSpace messageText) = some amount →
        handleText env userCategories userID messageText =
            (userCategories, numericBranch userCategories userID amount) ∧
          (numericBranch userCategories userID amount = Reply.noCategories ∨
            ∃ cats, userCategories userID = some cats ∧ cats ≠ [] ∧
              numericBranch userCategories userID amount =
                Reply.budgetSplit (splitBudget cats amount))) ∧
    (¬ jsonAccepted env messageText → ¬ yamlAccepted env messageText →
      env.parseFloat (env.trimSpace messageText) = none →
        handleText env userCategories userID messageText = (userCategories, Reply.help)) := by
  obtain ⟨h1, h2, h3, h4⟩ := handleText_cases env userCategories userID messageText
  refine ⟨h1, ?_, h2, ?_, h4⟩
  · intro hj _
    rw [h1 hj]
  · intro hj hy amount hnum
    exact ⟨h3 hj hy amount hnum, numericBranch_cases userCategories userID amount⟩

theorem classification_first_match_wins_witness :
    jsonAccepted sampleEnv "\x7b\"Food\": 50\x7d" ∧
      yamlAccepted sampleEnv "\x7b\"Food\": 50\x7d" ∧
      (handleText sampleEnv sampleStore 2 "\x7b\"Food\": 50\x7d").2 = Reply.updatedJSON :=
  have hj : jsonAccepted sampleEnv "\x7b\"Food\": 50\x7d" := by
    simp [jsonAccepted, jsonResult, sampleEnv]
  have hy : yamlAccepted sampleEnv "\x7b\"Food\": 50\x7d" := by
    simp [yamlAccepted, yamlResult, jsonResult, sampleEnv, preprocessYAML, preprocessChars]
  ⟨hj, hy,
    (classification_first_match_wins sampleEnv sampleStore 2 "\x7b\"Food\": 50\x7d").2.1 hj hy⟩

/-- C5: one pass either leaves the whole store unchanged or replaces exactly the sender's
entry with the non-empty set of an accepted JSON or YAML parse. No other user's entry changes,
a pass in which both attempts leave an empty set changes nothing, and if every stored set is
non-empty before the pass then every stored set is non-empty after it. -/
theorem store_changes_only_by_accepted_parse (env : Env) (userCategories : Store)
    (userID : Int) (messageText : String) :
    ((handleText env userCategories userID messageText).1 = userCategories ∨
      (jsonAccepted env messageText ∧ (jsonResult env messageText).1 ≠ [] ∧
        (handleText env userCategories userID messageText).1 =
          Function.update userCategories userID (some (jsonResult env messageText).1)) ∨
      (yamlAccepted env messageText ∧ (yamlResult env messageText).1 ≠ [] ∧
        (handleText env userCategories userID messageText).1 =
          Function.update userCategories userID (some (yamlResult env messageText).1))) ∧
    (∀ other, other ≠ userID →
      (handleText env userCategories userID messageText).1 other = userCategories other) ∧
    ((jsonResult env messageText).1 = [] → (yamlResult env messageText).1 = [] →
      (handleText env userCategories userID messageText).1 = userCategories) ∧
    ((∀ u cats, userCategories u = some cats → cats ≠ []) →
      ∀ u cats, (handleText env userCategories userID messageText).1 u = some cats →
        cats ≠ []) := by
  obtain ⟨h1, h2, h3, h4⟩ := handleText_cases env userCategories userID messageText
  have hjne : jsonAccepted env messageText → (jsonResult env messageText).1 ≠ [] :=
    fun hj => List.ne_nil_of_length_pos hj.2
  have hyne : yamlAccepted env messageText → (yamlResult env messageText).1 ≠ [] :=
    fun hy => List.ne_nil_of_length_pos hy.2
  have hmain : (handleText env userCategories userID messageText).1 = userCategories ∨
      (jsonAccepted env messageText ∧ (jsonResult env messageText).1 ≠ [] ∧
        (handleText env userCategories userID messageText).1 =
          Function.update userCategories userID (some (jsonResult env messageText).1)) ∨
      (yamlAccepted env messageText ∧ (yamlResult env messageText).1 ≠ [] ∧
        (handleText env userCategories userID messageText).1 =
          Function.update userCategories userID (some (yamlResult env messageText).1)) := by
    by_cases hj : jsonAccepted env messageText
    · exact Or.inr (Or.inl ⟨hj, hjne hj, by rw [h1 hj]⟩)
    · by_cases hy : yamlAccepted env messageText
      · exact Or.inr (Or.inr ⟨hy, hyne hy, by rw [h2 hj hy]⟩)
      · left
        cases hnum : env.parseFloat (env.trimSpace messageText) with
        | none => rw [h4 hj hy hnum]
        | some amount => rw [h3 hj hy amount hnum]
  refine ⟨hmain, ?_, ?_, ?_⟩
  · intro other hne
    rcases hmain with h | ⟨_, _, h⟩ | ⟨_, _, h⟩
    · rw [h]
    · rw [h, Function.update_noteq hne]
    · rw [h, Function.update_noteq hne]
  · intro hje hye
    rcases hmain with h | ⟨hj, hn, _⟩ | ⟨hy, hn, _⟩
    · exact h
    · exact absurd hje hn
    · exact absurd hye hn
  · intro hinv u cats hu
    rcases hmain with h | ⟨_, hn, h⟩ | ⟨_, hn, h⟩
    · rw [h] at hu
      exact hinv u cats hu
    · rw [h] at hu
      by_cases hu' : u = userID
      · subst hu'
        rw [Function.update_same] at hu
        exact (Option.some.inj hu) ▸ hn
      · rw [Function.update_noteq hu'] at hu
        exact hinv u cats hu
    · rw [h] at hu
      by_cases hu' : u = userID
      · subst hu'
        rw [Function.update_same] at hu
        exact (Option.some.inj hu) ▸ hn
      · rw [Function.update_noteq hu'] at hu
        exact hinv u cats hu

theorem store_changes_only_by_accepted_parse_witness :
    (∀ u cats, sampleStore u = some cats → cats ≠ []) ∧
      ∀ u cats, (handleText sampleEnv sampleStore 1 "Food:50").1 u = some cats → cats ≠ [] :=
  have hinv : ∀ u cats, sampleStore u = some cats → cats ≠ [] := by
    intro u cats h
    unfold sampleStore at h
    split at h
    · exact (Option.some.inj h) ▸ (by simp)
    · split at h
      · exact (Option.some.inj h) ▸ (by simp)
      · exact absurd h (by simp)
  ⟨hinv, (store_changes_only_by_accepted_parse sampleEnv sampleStore 1 "Food:50").2.2.2 hinv⟩

end BSA
